import Mathlib

/-!
# Geometric shapes collection (`ipr1.cpp`)

A shallow embedding of the program in `src/ipr1.cpp`.

* Shape objects live on a heap and are referred to through pointers, exactly
  as the `IContainer*` handles of the source.  A heap cell is either a live
  object or a released one.  Pointer `0` is the null pointer; `new` always
  hands out a fresh address (memory is taken to be unbounded, addresses are
  not reused).
* The collection object is the value threaded through its member functions;
  every member function receives `this` and the machine and returns what it
  leaves behind, so that "does not change" is a statement and not a typing
  accident.
* A dereference of a pointer that does not designate a live object is
  undefined behaviour in C++; the embedding reports it as `none`.
* `int` is 32 bits wide and `size_t` at least as wide, so the conversion of a
  vector size to `int` wraps modulo `2 ^ 32` into the signed range.
* The standard streams are text: `cout` is the text written so far, `cin` the
  characters still to be read.
-/

set_option linter.dupNamespace false

namespace Shapes

/-! ## Constants (lines 15-17) -/

/-- Constant `BR`. -/
def BR : String := "\n\n"

/-- Constant `MSG_COUNT`. -/
def MSG_COUNT : String := "Количество геометрических фигур в коллекции = "

/-- Constant `MSG_APP_EXIT`. -/
def MSG_APP_EXIT : String := "\nДля выхода из программы нажмите любую клавишу"

/-! ## Shape objects (lines 91-170) -/

/-- Class `BaseShape`: its only data member is the protected `name`. -/
structure BaseShape where
  name : String
deriving DecidableEq, Repr

/-- The implicit constructor of `BaseShape`: `name` is default-initialised to
the empty string. -/
def BaseShape.implicitCtor : BaseShape := { name := "" }

/-- Member `BaseShape::getName`: `return this->name;`. -/
def BaseShape.getName (this : BaseShape) : String := this.name

/-- Constructor `Line::Line`: `this->name = "прямая";`. -/
def Line.Line : BaseShape := { BaseShape.implicitCtor with name := "прямая" }

/-- Constructor `PolygonalChain::PolygonalChain`. -/
def PolygonalChain.PolygonalChain : BaseShape :=
  { BaseShape.implicitCtor with name := "ломаная" }

/-- Constructor `Rectangle::Rectangle`. -/
def Rectangle.Rectangle : BaseShape :=
  { BaseShape.implicitCtor with name := "прямоугольник" }

/-- Constructor `Ellipse::Ellipse`. -/
def Ellipse.Ellipse : BaseShape := { BaseShape.implicitCtor with name := "эллипс" }

/-- Constructor `Polygon::Polygon`. -/
def Polygon.Polygon : BaseShape :=
  { BaseShape.implicitCtor with name := "многоугольник" }

/-- The five classes derived from `BaseShape`. -/
inductive Variant where
  | Line
  | PolygonalChain
  | Rectangle
  | Ellipse
  | Polygon
deriving DecidableEq, Repr

/-- The object built by the constructor of the class a variant names. -/
def Variant.construct : Variant → BaseShape
  | .Line => Line.Line
  | .PolygonalChain => PolygonalChain.PolygonalChain
  | .Rectangle => Rectangle.Rectangle
  | .Ellipse => Ellipse.Ellipse
  | .Polygon => Polygon.Polygon

/-! ## The machine: heap and standard streams -/

/-- A pointer to a shape object (`IContainer*`); `0` is the null pointer, a
pointer `p + 1` designates heap cell `p`. -/
abbrev Ptr := Nat

/-- The state outside the collection: the heap of shape objects (`none` is a
cell whose object has been released), the text written to `cout`, and the
characters waiting on `cin`. -/
structure Machine where
  heap : List (Option BaseShape)
  cout : String
  cin : List Char
deriving DecidableEq, Repr

/-- The machine at program start: nothing allocated, nothing written. -/
def Machine.start (input : List Char) : Machine :=
  { heap := [], cout := "", cin := input }

/-- Dereference `*p`: the live object a pointer designates, `none` for the null
pointer, a released object or an address never handed out. -/
def Machine.deref (m : Machine) (p : Ptr) : Option BaseShape :=
  if p = 0 then none else (m.heap[p - 1]?).join

/-- Expression `new T()` for an object value built by the constructor of `T`:
a fresh cell is taken and its address returned. -/
def Machine.new (m : Machine) (obj : BaseShape) : Ptr × Machine :=
  (m.heap.length + 1, { m with heap := m.heap ++ [some obj] })

/-- Expression `delete p` for a pointer to a live object: the cell is released.
Deleting what is not a live object is undefined (`none`). -/
def Machine.delete (m : Machine) (p : Ptr) : Option Machine :=
  match m.deref p with
  | none => none
  | some _ => some { m with heap := m.heap.set (p - 1) none }

/-- Stream insertion `cout << s` of a string. -/
def Machine.put (m : Machine) (s : String) : Machine :=
  { m with cout := m.cout ++ s }

/-- Stream insertion `cout << n` of an `int`: its decimal text. -/
def Machine.putInt (m : Machine) (n : Int) : Machine :=
  m.put (toString n)

/-- Manipulator `cout << endl`: one line terminator (the flush is not
observable in the text). -/
def Machine.endl (m : Machine) : Machine :=
  m.put "\n"

/-- Call `cin.get()` with the result discarded: one character is consumed when
there is one. -/
def Machine.get (m : Machine) : Machine :=
  { m with cin := m.cin.tail }

/-- Expression `new Line()`. -/
def Line.new (m : Machine) : Ptr × Machine := m.new Line.Line

/-- Expression `new PolygonalChain()`. -/
def PolygonalChain.new (m : Machine) : Ptr × Machine :=
  m.new PolygonalChain.PolygonalChain

/-- Expression `new Rectangle()`. -/
def Rectangle.new (m : Machine) : Ptr × Machine := m.new Rectangle.Rectangle

/-- Expression `new Ellipse()`. -/
def Ellipse.new (m : Machine) : Ptr × Machine := m.new Ellipse.Ellipse

/-- Expression `new Polygon()`. -/
def Polygon.new (m : Machine) : Ptr × Machine := m.new Polygon.Polygon

/-- The virtual call `shape->getName()` through an `IContainer*`: the pointer
is dereferenced and `BaseShape::getName` runs on the object.  The result is the
returned string together with the machine the call leaves behind. -/
def IContainer.getName (m : Machine) (shape : Ptr) : Option (String × Machine) :=
  (m.deref shape).map (fun obj => (obj.getName, m))

/-- Member `BaseShape::free` called through a pointer: `delete this;`. -/
def BaseShape.free (m : Machine) (this : Ptr) : Option Machine :=
  m.delete this

/-! ## The collection (lines 176-209) -/

/-- Class `ShapesCollection`: its only data member is the private vector
`shapes` of `IContainer*`. -/
structure ShapesCollection where
  shapes : List Ptr
deriving DecidableEq, Repr

/-- Expression `new ShapesCollection()`: the vector is default-constructed,
hence empty. -/
def ShapesCollection.new : ShapesCollection := { shapes := [] }

/-- Conversion of a vector size (`size_t`) to `int`, as performed by the
`return` statement of `getCount`. -/
def sizeToInt (size : Nat) : Int :=
  if size % 2 ^ 32 < 2 ^ 31 then ((size % 2 ^ 32 : Nat) : Int)
  else ((size % 2 ^ 32 : Nat) : Int) - 2 ^ 32

/-- Member `ShapesCollection::add`: `shapes.push_back(shape);`. -/
def ShapesCollection.add (this : ShapesCollection) (shape : Ptr) (m : Machine) :
    ShapesCollection × Machine :=
  ({ this with shapes := this.shapes ++ [shape] }, m)

/-- The `while (item != shapes.end())` loop of `displayShapesList`, from the
iterator position whose remaining elements are the given list:
`IContainer* shape = *item++; cout << shape->getName() << endl;`. -/
def ShapesCollection.displayLoop (m : Machine) : List Ptr → Option Machine
  | [] => some m
  | shape :: item =>
    match IContainer.getName m shape with
    | none => none
    | some (name, m) => ShapesCollection.displayLoop ((m.put name).endl) item

/-- Member `ShapesCollection::displayShapesList`: the loop is run from
`shapes.begin()`. -/
def ShapesCollection.displayShapesList (this : ShapesCollection) (m : Machine) :
    Option (ShapesCollection × Machine) :=
  (ShapesCollection.displayLoop m this.shapes).map (fun m' => (this, m'))

/-- Member `ShapesCollection::clearCollection`: `shapes.clear();`. -/
def ShapesCollection.clearCollection (this : ShapesCollection) (m : Machine) :
    ShapesCollection × Machine :=
  ({ this with shapes := [] }, m)

/-- Member `ShapesCollection::getCount`: `return shapes.size();`. -/
def ShapesCollection.getCount (this : ShapesCollection) (m : Machine) :
    Int × ShapesCollection × Machine :=
  (sizeToInt this.shapes.length, this, m)

/-- Member `ShapesCollection::free`: `delete this;`.  The collection ceases to
exist; the destructor of a vector of pointers releases the vector's own
storage and leaves the objects pointed to alone. -/
def ShapesCollection.free (_this : ShapesCollection) (m : Machine) : Machine :=
  m

/-! ## The driver (lines 214-259) -/

/-- Static member `Application::run`. -/
def Application.run (m : Machine) : Option Machine :=
  let collection := ShapesCollection.new
  let (p, m) := Line.new m
  let (collection, m) := collection.add p m
  let (p, m) := PolygonalChain.new m
  let (collection, m) := collection.add p m
  let (p, m) := Rectangle.new m
  let (collection, m) := collection.add p m
  let (p, m) := Ellipse.new m
  let (collection, m) := collection.add p m
  let (p, m) := Polygon.new m
  let (collection, m) := collection.add p m
  let m := m.put MSG_COUNT
  let (count, collection, m) := collection.getCount m
  let m := (m.putInt count).put BR
  match collection.displayShapesList m with
  | none => none
  | some (collection, m) =>
    let (collection, m) := collection.clearCollection m
    let m := collection.free m
    let m := m.put MSG_APP_EXIT
    some m.get

/-- Function `main`: runs the application on a fresh machine and returns `0`. -/
def main (input : List Char) : Option (Int × Machine) :=
  (Application.run (Machine.start input)).map (fun m => (0, m))

/-! ## Building collections and shapes -/

/-- Calling `add` once for each pointer of a list, in order. -/
def addAll (this : ShapesCollection) (m : Machine) : List Ptr → ShapesCollection × Machine
  | [] => (this, m)
  | shape :: rest => addAll (this.add shape m).1 (this.add shape m).2 rest

/-- Constructing with `new` one object for each variant of a list, in order:
the pointers obtained and the machine left behind. -/
def newAll (m : Machine) : List Variant → List Ptr × Machine
  | [] => ([], m)
  | v :: rest =>
    ((m.new v.construct).1 :: (newAll (m.new v.construct).2 rest).1,
      (newAll (m.new v.construct).2 rest).2)

/-- The value `getCount` returns after `add` has been called on a new
collection once for each pointer of a list. -/
def countAfterAdds (m : Machine) (ps : List Ptr) : Int :=
  ((addAll ShapesCollection.new m ps).1.getCount (addAll ShapesCollection.new m ps).2).1

/-- The text of a list of names, each followed by one line terminator. -/
def linesOf : List String → String
  | [] => ""
  | name :: rest => name ++ "\n" ++ linesOf rest

/-- Pointer `p` yields name `n` under `getName` on machine `m`. -/
def Named (m : Machine) (p : Ptr) (n : String) : Prop :=
  IContainer.getName m p = some (n, m)

instance (m : Machine) (p : Ptr) (n : String) : Decidable (Named m p n) := by
  unfold Named; infer_instance

/-! ## Sequences of calls -/

/-- One call of a member function of the collection. -/
inductive Op where
  | add (shape : Ptr)
  | getCount
  | displayShapesList
  | clearCollection
deriving DecidableEq, Repr

/-- Performing one call on a collection and a machine: what the call leaves
behind, `none` when it does not complete.  The value `getCount` returns is
dropped. -/
def Op.perform : Op → ShapesCollection × Machine → Option (ShapesCollection × Machine)
  | .add shape, s => some (s.1.add shape s.2)
  | .getCount, s => some (s.1.getCount s.2).2
  | .displayShapesList, s => s.1.displayShapesList s.2
  | .clearCollection, s => some (s.1.clearCollection s.2)

/-- Performing a sequence of calls, one after the other. -/
def performAll : List Op → ShapesCollection × Machine → Option (ShapesCollection × Machine)
  | [], s => some s
  | op :: rest, s => (op.perform s).bind (performAll rest)

/-- The handle a call passes, if it passes one, designates a live object of
the machine. -/
def Op.handleLive (m : Machine) : Op → Bool
  | .add shape => (m.deref shape).isSome
  | _ => true

/-- A collection and machine whose heap is that of `m` and whose stored
handles all designate live objects. -/
def Sound (m : Machine) (s : ShapesCollection × Machine) : Prop :=
  s.2.heap = m.heap ∧ ∀ p ∈ s.1.shapes, (m.deref p).isSome = true

/-- The number of line terminators in a text. -/
def lineCount (s : String) : Nat := s.toList.count '\n'

/-- The number of line terminators `displayShapesList` adds to `cout`, when it
completes. -/
def linesWritten (this : ShapesCollection) (m : Machine) : Option Nat :=
  (this.displayShapesList m).map (fun r => lineCount r.2.cout - lineCount m.cout)

/-! ## Auxiliary facts about the machine -/

theorem heap_put (m : Machine) (s : String) : (m.put s).heap = m.heap := rfl

theorem deref_of_heap (m₀ m : Machine) (hh : m.heap = m₀.heap) (p : Ptr) :
    m.deref p = m₀.deref p := by
  simp only [Machine.deref, hh]

theorem named_iff (m : Machine) (p : Ptr) (n : String) :
    Named m p n ↔ (m.deref p).map BaseShape.getName = some n := by
  unfold Named IContainer.getName
  cases m.deref p <;> simp

theorem named_of_heap (m₀ m : Machine) (hh : m.heap = m₀.heap) (p : Ptr) (n : String)
    (h : Named m₀ p n) : Named m p n := by
  rw [named_iff] at h ⊢
  rw [deref_of_heap m₀ m hh]
  exact h

theorem deref_new_self (m : Machine) (obj : BaseShape) :
    (m.new obj).2.deref (m.new obj).1 = some obj := by
  simp [Machine.new, Machine.deref]

theorem deref_new_of_live (m : Machine) (obj : BaseShape) (p : Ptr) (o : BaseShape)
    (h : m.deref p = some o) : (m.new obj).2.deref p = some o := by
  unfold Machine.deref at h ⊢
  by_cases hp : p = 0
  · simp [hp] at h
  · simp only [hp, if_false] at h ⊢
    have hlt : p - 1 < m.heap.length := by
      by_contra hge
      rw [List.getElem?_eq_none (Nat.le_of_not_lt hge)] at h
      simp at h
    simp only [Machine.new]
    rw [List.getElem?_append_left hlt]
    exact h

theorem named_new_of_named (m : Machine) (obj : BaseShape) (p : Ptr) (n : String)
    (h : Named m p n) : Named (m.new obj).2 p n := by
  rw [named_iff] at h ⊢
  cases hd : m.deref p with
  | none => simp [hd] at h
  | some o =>
    rw [deref_new_of_live m obj p o hd]
    simpa [hd] using h

theorem addAll_eq (this : ShapesCollection) (m : Machine) (ps : List Ptr) :
    addAll this m ps = ({ shapes := this.shapes ++ ps }, m) := by
  induction ps generalizing this with
  | nil => simp [addAll]
  | cons p rest ih => simp [addAll, ih, ShapesCollection.add]

theorem displayLoop_eq (m : Machine) (ps : List Ptr) (names : List String)
    (h : List.Forall₂ (Named m) ps names) :
    ShapesCollection.displayLoop m ps = some (m.put (linesOf names)) := by
  induction ps generalizing m names with
  | nil =>
    cases h
    simp [ShapesCollection.displayLoop, linesOf, Machine.put]
  | cons p rest ih =>
    cases h with
    | cons hp hrest =>
      rename_i name names
      unfold Named at hp
      simp only [ShapesCollection.displayLoop, hp]
      rw [ih ((m.put name).endl) names
        (hrest.imp (fun q k hq => named_of_heap m ((m.put name).endl) rfl q k hq))]
      simp [Machine.put, Machine.endl, linesOf, String.append_assoc]

theorem displayLoop_of_heap (m₀ : Machine) (ps : List Ptr) (names : List String)
    (h : List.Forall₂ (Named m₀) ps names) (m : Machine) (hh : m.heap = m₀.heap) :
    ShapesCollection.displayLoop m ps = some (m.put (linesOf names)) :=
  displayLoop_eq m ps names (h.imp (fun p n hp => named_of_heap m₀ m hh p n hp))

theorem displayLoop_complete (m₀ : Machine) (ps : List Ptr)
    (h : ∀ p ∈ ps, (m₀.deref p).isSome = true) (m : Machine) (hh : m.heap = m₀.heap) :
    ∃ m₁, ShapesCollection.displayLoop m ps = some m₁ ∧ m₁.heap = m₀.heap := by
  induction ps generalizing m with
  | nil => exact ⟨m, rfl, hh⟩
  | cons p rest ih =>
    have hp := h p (List.mem_cons_self p rest)
    rw [← deref_of_heap m₀ m hh p] at hp
    obtain ⟨o, ho⟩ := Option.isSome_iff_exists.mp hp
    simp only [ShapesCollection.displayLoop, IContainer.getName, ho, Option.map_some']
    exact ih (fun q hq => h q (List.mem_cons_of_mem p hq)) _ hh

theorem displayLoop_some (m : Machine) (ps : List Ptr) (m₁ : Machine)
    (h : ShapesCollection.displayLoop m ps = some m₁) :
    ∃ names, List.Forall₂ (Named m) ps names ∧ m₁ = m.put (linesOf names) := by
  induction ps generalizing m with
  | nil =>
    refine ⟨[], List.Forall₂.nil, ?_⟩
    simp only [ShapesCollection.displayLoop, Option.some.injEq] at h
    simp [← h, Machine.put, linesOf]
  | cons p rest ih =>
    cases hd : m.deref p with
    | none =>
      simp [ShapesCollection.displayLoop, IContainer.getName, hd] at h
    | some o =>
      simp only [ShapesCollection.displayLoop, IContainer.getName, hd,
        Option.map_some'] at h
      obtain ⟨names, hnames, hm₁⟩ := ih _ h
      refine ⟨o.getName :: names, List.Forall₂.cons ?_ ?_, ?_⟩
      · rw [named_iff, hd]
        rfl
      · exact hnames.imp
          (fun q k hq => named_of_heap ((m.put o.getName).endl) m rfl q k hq)
      · rw [hm₁]
        simp [Machine.put, Machine.endl, linesOf, String.append_assoc]

theorem live_of_named (m : Machine) (ps : List Ptr) (names : List String)
    (h : List.Forall₂ (Named m) ps names) : ∀ p ∈ ps, (m.deref p).isSome = true := by
  induction h with
  | nil => intro p hp; simp at hp
  | cons hpn _ ih =>
    intro q hq
    rcases List.mem_cons.mp hq with rfl | hq
    · rw [named_iff] at hpn
      cases hd : m.deref q with
      | none => simp [hd] at hpn
      | some o => rfl
    · exact ih q hq

theorem newAll_keeps (m : Machine) (vs : List Variant) (p : Ptr) (o : BaseShape)
    (h : m.deref p = some o) : (newAll m vs).2.deref p = some o := by
  induction vs generalizing m with
  | nil => exact h
  | cons v rest ih => exact ih _ (deref_new_of_live m _ p o h)

theorem newAll_names (m : Machine) (vs : List Variant) :
    List.Forall₂ (Named (newAll m vs).2) (newAll m vs).1
      (vs.map (fun v => v.construct.getName)) := by
  induction vs generalizing m with
  | nil => exact List.Forall₂.nil
  | cons v rest ih =>
    refine List.Forall₂.cons ?_ (ih _)
    rw [named_iff]
    simp only [newAll]
    rw [newAll_keeps _ rest _ _ (deref_new_self m v.construct)]
    rfl

theorem newAll_heap (m : Machine) (vs : List Variant) :
    (newAll m vs).2 = { m with heap := m.heap ++ vs.map (fun v => some v.construct) } := by
  induction vs generalizing m with
  | nil => simp [newAll]
  | cons v rest ih => simp [newAll, ih, Machine.new]

theorem run_eq (m : Machine) :
    Application.run m = some
      { heap := m.heap ++ [some Line.Line, some PolygonalChain.PolygonalChain,
          some Rectangle.Rectangle, some Ellipse.Ellipse, some Polygon.Polygon],
        cout := m.cout ++ (MSG_COUNT ++ ("5" ++ (BR ++
          (linesOf ["прямая", "ломаная", "прямоугольник", "эллипс", "многоугольник"] ++
            MSG_APP_EXIT)))),
        cin := m.cin.tail } := by
  have hn := newAll_names m [.Line, .PolygonalChain, .Rectangle, .Ellipse, .Polygon]
  simp only [newAll, Variant.construct, List.map] at hn
  have h5 : toString (sizeToInt 5) = "5" := by decide
  simp only [Application.run, Line.new, PolygonalChain.new, Rectangle.new, Ellipse.new,
    Polygon.new, ShapesCollection.add, ShapesCollection.new, ShapesCollection.getCount,
    ShapesCollection.displayShapesList, Machine.putInt, ShapesCollection.clearCollection,
    ShapesCollection.free, List.nil_append, List.cons_append, List.length_cons,
    List.length_nil, Nat.zero_add, Nat.reduceAdd, h5]
  simp only [displayLoop_of_heap _ _ _ hn, heap_put, Option.map_some']
  simp [Machine.put, Machine.get, Machine.new, String.append_assoc]
  rfl

theorem sizeToInt_of_le (n : Nat) (h : n ≤ 2 ^ 31 - 1) : sizeToInt n = (n : Int) := by
  have h1 : n % 2 ^ 32 = n := Nat.mod_eq_of_lt (by omega)
  have h2 : n < 2 ^ 31 := by omega
  simp only [sizeToInt, h1, h2, if_true]

theorem countAfterAdds_eq (m : Machine) (ps : List Ptr) :
    countAfterAdds m ps = sizeToInt ps.length := by
  simp [countAfterAdds, addAll_eq, ShapesCollection.getCount, ShapesCollection.new]

/-! ## C1: the count after `n` additions -/

/-- C1, as stated, fails: after `2 ^ 31` calls of `add` on a new collection
(each with the pointer of one constructed `Line`), `getCount` returns
`-2147483648` and not `2 ^ 31`. -/
theorem getCount_after_adds_counterexample :
    (List.replicate (2 ^ 31) (Line.new (Machine.start [])).1).length = 2 ^ 31 ∧
    countAfterAdds (Line.new (Machine.start [])).2
        (List.replicate (2 ^ 31) (Line.new (Machine.start [])).1) = -2147483648 ∧
    countAfterAdds (Line.new (Machine.start [])).2
        (List.replicate (2 ^ 31) (Line.new (Machine.start [])).1) ≠ ((2 ^ 31 : Nat) : Int) := by
  have hc : countAfterAdds (Line.new (Machine.start [])).2
      (List.replicate (2 ^ 31) (Line.new (Machine.start [])).1) = -2147483648 := by
    rw [countAfterAdds_eq, List.length_replicate]
    decide
  refine ⟨List.length_replicate _ _, hc, ?_⟩
  rw [hc]
  decide

/-- C1 (amended): `getCount` on a newly constructed collection returns `0`,
and after `add` has been called `n` times on it, with any pointers and with
repeats allowed, `getCount` returns `n`, for every `n` up to `2 ^ 31 - 1`. -/
theorem getCount_after_adds (m : Machine) (ps : List Ptr) (h : ps.length ≤ 2 ^ 31 - 1) :
    (ShapesCollection.new.getCount m).1 = 0 ∧
    countAfterAdds m ps = (ps.length : Int) := by
  refine ⟨rfl, ?_⟩
  rw [countAfterAdds_eq, sizeToInt_of_le _ h]

/-- Witness for C1: three additions, with a repeat, on the machine holding one
`Line` and one `Ellipse`. -/
theorem getCount_after_adds_witness :
    [1, 2, 1].length ≤ 2 ^ 31 - 1 ∧
    (ShapesCollection.new.getCount (newAll (Machine.start []) [.Line, .Ellipse]).2).1 = 0 ∧
    countAfterAdds (newAll (Machine.start []) [.Line, .Ellipse]).2 [1, 2, 1] = 3 :=
  ⟨by decide, getCount_after_adds _ [1, 2, 1] (by decide)⟩

/-! ## C2: what `displayShapesList` writes -/

/-- C2: for a collection built by adding, in order, pointers whose objects
have the names `names`, `displayShapesList` completes, leaves the collection
as it is and appends to `cout` exactly those names in insertion order, each
followed by one line terminator (heap and `cin` are as before).  For the
sequence Line, PolygonalChain, Rectangle, Ellipse, Polygon the text written is
the five labels, one to a line. -/
theorem displayShapesList_writes_names (m : Machine) (ps : List Ptr) (names : List String)
    (h : List.Forall₂ (Named m) ps names) :
    (addAll ShapesCollection.new m ps).1.displayShapesList (addAll ShapesCollection.new m ps).2
      = some ((addAll ShapesCollection.new m ps).1,
          { m with cout := m.cout ++ linesOf names }) ∧
    ∀ m₀ : Machine,
      ((addAll ShapesCollection.new
          (newAll m₀ [.Line, .PolygonalChain, .Rectangle, .Ellipse, .Polygon]).2
          (newAll m₀ [.Line, .PolygonalChain, .Rectangle, .Ellipse, .Polygon]).1).1.displayShapesList
        (newAll m₀ [.Line, .PolygonalChain, .Rectangle, .Ellipse, .Polygon]).2).map
          (fun r => r.2.cout)
        = some (m₀.cout ++ "прямая\nломаная\nпрямоугольник\nэллипс\nмногоугольник\n") := by
  have key : ∀ (m : Machine) (ps : List Ptr) (names : List String),
      List.Forall₂ (Named m) ps names →
      (addAll ShapesCollection.new m ps).1.displayShapesList (addAll ShapesCollection.new m ps).2
        = some ((addAll ShapesCollection.new m ps).1,
            { m with cout := m.cout ++ linesOf names }) := by
    intro m ps names h
    simp only [addAll_eq, ShapesCollection.displayShapesList, ShapesCollection.new,
      List.nil_append, displayLoop_eq m ps names h, Option.map_some', Machine.put]
  refine ⟨key m ps names h, fun m₀ => ?_⟩
  have h5 := key _ _ _ (newAll_names m₀ [.Line, .PolygonalChain, .Rectangle, .Ellipse, .Polygon])
  simp only [addAll_eq] at h5 ⊢
  rw [h5]
  simp only [Option.map_some', newAll_heap]
  rfl

/-- Witness for C2: a `Rectangle` and a `Line` are constructed and added in the
order Line, Rectangle, Line. -/
theorem displayShapesList_writes_names_witness :
    List.Forall₂ (Named (newAll (Machine.start []) [.Rectangle, .Line]).2) [2, 1, 2]
      ["прямая", "прямоугольник", "прямая"] ∧
    (addAll ShapesCollection.new (newAll (Machine.start []) [.Rectangle, .Line]).2
        [2, 1, 2]).1.displayShapesList
      (addAll ShapesCollection.new (newAll (Machine.start []) [.Rectangle, .Line]).2 [2, 1, 2]).2
      = some ((addAll ShapesCollection.new (newAll (Machine.start []) [.Rectangle, .Line]).2
            [2, 1, 2]).1,
          { (newAll (Machine.start []) [.Rectangle, .Line]).2 with
            cout := (newAll (Machine.start []) [.Rectangle, .Line]).2.cout ++
              linesOf ["прямая", "прямоугольник", "прямая"] }) :=
  have h : List.Forall₂ (Named (newAll (Machine.start []) [.Rectangle, .Line]).2) [2, 1, 2]
      ["прямая", "прямоугольник", "прямая"] :=
    List.Forall₂.cons (by decide) (List.Forall₂.cons (by decide)
      (List.Forall₂.cons (by decide) List.Forall₂.nil))
  ⟨h, (displayShapesList_writes_names _ _ _ h).1⟩

/-! ## C3: the label of each variant -/

/-- C3: on every machine, `getName` called on a freshly constructed shape
returns the label of its class: Line "прямая", PolygonalChain "ломаная",
Rectangle "прямоугольник", Ellipse "эллипс", Polygon "многоугольник"; and the
label determines the class (the five labels are pairwise distinct). -/
theorem getName_of_fresh_shape (m : Machine) :
    (IContainer.getName (Line.new m).2 (Line.new m).1).map Prod.fst = some "прямая" ∧
    (IContainer.getName (PolygonalChain.new m).2 (PolygonalChain.new m).1).map Prod.fst
      = some "ломаная" ∧
    (IContainer.getName (Rectangle.new m).2 (Rectangle.new m).1).map Prod.fst
      = some "прямоугольник" ∧
    (IContainer.getName (Ellipse.new m).2 (Ellipse.new m).1).map Prod.fst = some "эллипс" ∧
    (IContainer.getName (Polygon.new m).2 (Polygon.new m).1).map Prod.fst
      = some "многоугольник" ∧
    Function.Injective (fun v : Variant => v.construct.getName) := by
  have key : ∀ obj : BaseShape,
      (IContainer.getName (m.new obj).2 (m.new obj).1).map Prod.fst = some obj.getName := by
    intro obj
    simp [IContainer.getName, deref_new_self]
  refine ⟨key _, key _, key _, key _, key _, ?_⟩
  intro v w hvw
  revert hvw
  cases v <;> cases w <;> decide

/-! ## C4: the output of the driver -/

/-- C4: whatever waits on standard input, `Application::run` started on a fresh
machine completes and has written exactly the count line with count 5, a blank
line, the five labels one to a line in the order Line, PolygonalChain,
Rectangle, Ellipse, Polygon, and the exit prompt without a line terminator;
started on any machine, it appends exactly that text to `cout`. -/
theorem run_output (input : List Char) :
    (Application.run (Machine.start input)).map Machine.cout = some
      "Количество геометрических фигур в коллекции = 5\n\nпрямая\nломаная\nпрямоугольник\nэллипс\nмногоугольник\n\nДля выхода из программы нажмите любую клавишу" ∧
    ∀ m : Machine, (Application.run m).map Machine.cout = some (m.cout ++
      "Количество геометрических фигур в коллекции = 5\n\nпрямая\nломаная\nпрямоугольник\nэллипс\nмногоугольник\n\nДля выхода из программы нажмите любую клавишу") := by
  have key : ∀ m : Machine, (Application.run m).map Machine.cout = some (m.cout ++
      "Количество геометрических фигур в коллекции = 5\n\nпрямая\nломаная\nпрямоугольник\nэллипс\nмногоугольник\n\nДля выхода из программы нажмите любую клавишу") := by
    intro m
    rw [run_eq]
    rfl
  refine ⟨?_, key⟩
  rw [key]
  rfl

/-! ## C5: the collection after `clearCollection` -/

/-- C5: for every collection, populated or empty, on every machine, after
`clearCollection` a call of `getCount` returns `0` and a call of
`displayShapesList` completes and leaves the machine, hence `cout`, exactly as
it was. -/
theorem clearCollection_then_empty (this : ShapesCollection) (m : Machine) :
    ((this.clearCollection m).1.getCount (this.clearCollection m).2).1 = 0 ∧
    (this.clearCollection m).1.displayShapesList (this.clearCollection m).2
      = some ((this.clearCollection m).1, m) ∧
    ((this.clearCollection m).1.displayShapesList (this.clearCollection m).2).map
      (fun r => r.2.cout) = some m.cout :=
  ⟨rfl, rfl, rfl⟩

/-! ## C6: what `clearCollection` releases -/

/-- C6 (the code departs from it): `clearCollection` leaves the heap as it
finds it, so it releases no shape.  With one `Line` constructed, added and the
collection cleared, the collection is empty and the `Line` is still a live
object, whereas `free` on it would have released it; and when
`Application::run` has finished, its five shapes are all still allocated. -/
theorem clearCollection_releases_nothing (this : ShapesCollection) (m : Machine) :
    (this.clearCollection m).2.heap = m.heap ∧
    ((ShapesCollection.new.add (Line.new (Machine.start [])).1
        (Line.new (Machine.start [])).2).1.clearCollection
      (Line.new (Machine.start [])).2).1.shapes = [] ∧
    ((ShapesCollection.new.add (Line.new (Machine.start [])).1
        (Line.new (Machine.start [])).2).1.clearCollection
      (Line.new (Machine.start [])).2).2.deref (Line.new (Machine.start [])).1
        = some Line.Line ∧
    (BaseShape.free (Line.new (Machine.start [])).2 (Line.new (Machine.start [])).1).map
      (fun m₁ => m₁.deref (Line.new (Machine.start [])).1) = some none ∧
    (Application.run (Machine.start [])).map Machine.heap
      = some [some Line.Line, some PolygonalChain.PolygonalChain, some Rectangle.Rectangle,
          some Ellipse.Ellipse, some Polygon.Polygon] := by
  refine ⟨rfl, rfl, by decide, by decide, ?_⟩
  rw [run_eq]
  rfl

/-! ## C7: clearing twice -/

/-- C7: `clearCollection` is idempotent: clearing a cleared collection yields
the same collection and machine as the first clearing, and clearing the empty
collection leaves it the empty collection, with `getCount` equal to `0`. -/
theorem clearCollection_idempotent (this : ShapesCollection) (m : Machine) :
    (this.clearCollection m).1.clearCollection (this.clearCollection m).2
      = this.clearCollection m ∧
    ShapesCollection.new.clearCollection m = (ShapesCollection.new, m) ∧
    ((ShapesCollection.new.clearCollection m).1.getCount
      (ShapesCollection.new.clearCollection m).2).1 = 0 :=
  ⟨rfl, rfl, rfl⟩

/-! ## C8: the effect of `add` -/

/-- C8: for every collection with item sequence `xs` and every pointer `s`,
also one already contained, `add` yields the item sequence `xs ++ [s]`: the
new pointer is last, the first `xs.length` items are `xs` unchanged, the
length grows by exactly one; the machine is left as it was. -/
theorem add_appends (this : ShapesCollection) (shape : Ptr) (m : Machine) :
    (this.add shape m).1.shapes = this.shapes ++ [shape] ∧
    (this.add shape m).1.shapes.getLast? = some shape ∧
    (this.add shape m).1.shapes.take this.shapes.length = this.shapes ∧
    (this.add shape m).1.shapes.length = this.shapes.length + 1 ∧
    (this.add shape m).2 = m := by
  simp [ShapesCollection.add]

/-! ## C9: `displayShapesList` and `getCount` change nothing -/

/-- C9: for every collection on every machine, `getCount` returns the
collection and the machine as they were.  Whenever `displayShapesList`
returns, it returns the collection as it was and a machine that differs only
by a text appended to `cout`; afterwards `getCount` returns the same value and
a second `displayShapesList` completes and appends that same text again.
`displayShapesList` returns exactly when every stored handle designates a live
object, and the text is then the names of the objects, one to a line. -/
theorem display_and_getCount_keep_collection (this : ShapesCollection) (m : Machine) :
    (this.getCount m).2 = (this, m) ∧
    (∀ r, this.displayShapesList m = some r →
      r.1 = this ∧ r.2.heap = m.heap ∧ r.2.cin = m.cin ∧
      (r.1.getCount r.2).1 = (this.getCount m).1 ∧
      ∃ text, r.2.cout = m.cout ++ text ∧
        r.1.displayShapesList r.2 = some (this, { r.2 with cout := r.2.cout ++ text })) ∧
    ((this.displayShapesList m).isSome = true ↔
      ∀ p ∈ this.shapes, (m.deref p).isSome = true) ∧
    (∀ names, List.Forall₂ (Named m) this.shapes names →
      this.displayShapesList m
        = some (this, { m with cout := m.cout ++ linesOf names }) ∧
      this.displayShapesList { m with cout := m.cout ++ linesOf names }
        = some (this, { m with cout := m.cout ++ linesOf names ++ linesOf names })) := by
  have hnames : ∀ names, List.Forall₂ (Named m) this.shapes names →
      this.displayShapesList m
        = some (this, { m with cout := m.cout ++ linesOf names }) ∧
      this.displayShapesList { m with cout := m.cout ++ linesOf names }
        = some (this, { m with cout := m.cout ++ linesOf names ++ linesOf names }) := by
    intro names h
    constructor
    · simp only [ShapesCollection.displayShapesList, displayLoop_eq m _ names h,
        Option.map_some', Machine.put]
    · simp only [ShapesCollection.displayShapesList,
        displayLoop_of_heap m _ names h { m with cout := m.cout ++ linesOf names } rfl,
        Option.map_some', Machine.put]
  refine ⟨rfl, ?_, ⟨?_, ?_⟩, hnames⟩
  · intro r hr
    cases hl : ShapesCollection.displayLoop m this.shapes with
    | none => simp [ShapesCollection.displayShapesList, hl] at hr
    | some m₁ =>
      obtain ⟨names, hn, hm₁⟩ := displayLoop_some m this.shapes m₁ hl
      have hr1 := (hnames names hn).1
      rw [hr] at hr1
      have hr2 := (hnames names hn).2
      cases hr1
      exact ⟨rfl, rfl, rfl, rfl, linesOf names, rfl, hr2⟩
  · intro hsome
    cases hl : ShapesCollection.displayLoop m this.shapes with
    | none => simp [ShapesCollection.displayShapesList, hl] at hsome
    | some m₁ =>
      obtain ⟨names, hn, _⟩ := displayLoop_some m this.shapes m₁ hl
      exact live_of_named m this.shapes names hn
  · intro hlive
    obtain ⟨m₁, hm₁, _⟩ := displayLoop_complete m this.shapes hlive m rfl
    simp [ShapesCollection.displayShapesList, hm₁]

/-- Witness for C9: on the collection holding an `Ellipse` twice and a
`Polygon`, `displayShapesList` returns the collection and has written the three
names; on the collection holding the null pointer, `getCount` returns the
collection and the machine as they were. -/
theorem display_and_getCount_keep_collection_witness :
    ((ShapesCollection.mk [1, 2, 1]).displayShapesList
        (newAll (Machine.start []) [.Ellipse, .Polygon]).2).map (fun r => (r.1, r.2.cout))
      = some (ShapesCollection.mk [1, 2, 1], "эллипс\nмногоугольник\nэллипс\n") ∧
    ((ShapesCollection.mk [0]).getCount (Machine.start [])).2
      = (ShapesCollection.mk [0], Machine.start []) :=
  have h : List.Forall₂ (Named (newAll (Machine.start []) [.Ellipse, .Polygon]).2)
      (ShapesCollection.mk [1, 2, 1]).shapes ["эллипс", "многоугольник", "эллипс"] :=
    List.Forall₂.cons (by decide) (List.Forall₂.cons (by decide)
      (List.Forall₂.cons (by decide) List.Forall₂.nil))
  ⟨by
    rw [((display_and_getCount_keep_collection _ _).2.2.2 _ h).1]
    rfl,
   (display_and_getCount_keep_collection (ShapesCollection.mk [0]) (Machine.start [])).1⟩

/-! ## C10: the name of a shape does not change -/

/-- C10: let `p` designate a shape whose `getName` returns `n`.  Then a call
of `getName` on `p` leaves the machine as it was, so a second call returns `n`
again; and, for every collection, `p` is still named `n` after `add` (of any
pointer), after `getCount`, after `displayShapesList` whenever it returns
(which it does when the stored handles designate live objects), after
`clearCollection`, after the construction of any further shape, and after
`getName` on any other pointer. -/
theorem getName_stable (this : ShapesCollection) (m : Machine) (p q : Ptr) (obj : BaseShape)
    (n : String) (hp : Named m p n) :
    (IContainer.getName m p).bind (fun r => IContainer.getName r.2 p) = some (n, m) ∧
    Named (this.add q m).2 p n ∧
    Named (this.getCount m).2.2 p n ∧
    (∀ r, this.displayShapesList m = some r → Named r.2 p n) ∧
    ((∀ s ∈ this.shapes, (m.deref s).isSome = true) →
      ∃ r, this.displayShapesList m = some r ∧ Named r.2 p n) ∧
    Named (this.clearCollection m).2 p n ∧
    Named (m.new obj).2 p n ∧
    (∀ r, IContainer.getName m q = some r → Named r.2 p n) := by
  have hdisp : ∀ r, this.displayShapesList m = some r → Named r.2 p n := by
    intro r hr
    cases hl : ShapesCollection.displayLoop m this.shapes with
    | none => simp [ShapesCollection.displayShapesList, hl] at hr
    | some m₁ =>
      obtain ⟨names, _, hm₁⟩ := displayLoop_some m this.shapes m₁ hl
      simp only [ShapesCollection.displayShapesList, hl, Option.map_some',
        Option.some.injEq] at hr
      rw [← hr, hm₁]
      exact named_of_heap m (m.put (linesOf names)) rfl p n hp
  refine ⟨?_, hp, hp, hdisp, ?_, hp, named_new_of_named m obj p n hp, ?_⟩
  · have hp2 : IContainer.getName m p = some (n, m) := hp
    rw [hp2]
    exact hp2
  · intro hlive
    obtain ⟨m₁, hm₁, _⟩ := displayLoop_complete m this.shapes hlive m rfl
    have hr : this.displayShapesList m = some (this, m₁) := by
      simp only [ShapesCollection.displayShapesList, hm₁, Option.map_some']
    exact ⟨(this, m₁), hr, hdisp _ hr⟩
  · intro r hr
    unfold IContainer.getName at hr
    cases hd : m.deref q with
    | none => simp [hd] at hr
    | some o =>
      simp only [hd, Option.map_some', Option.some.injEq] at hr
      rw [← hr]
      exact hp

/-- Witness for C10: a `Line` and a `Polygon` are live and `p` is the `Line`.
It keeps its name when the null pointer is added to a collection that already
holds a dead handle, when a `Rectangle` is constructed, and when the
collection holding both shapes is displayed. -/
theorem getName_stable_witness :
    Named (newAll (Machine.start []) [.Line, .Polygon]).2 1 "прямая" ∧
    Named ((ShapesCollection.mk [0, 7]).add 0
      (newAll (Machine.start []) [.Line, .Polygon]).2).2 1 "прямая" ∧
    Named ((newAll (Machine.start []) [.Line, .Polygon]).2.new Rectangle.Rectangle).2 1
      "прямая" ∧
    (∃ r, (ShapesCollection.mk [1, 2]).displayShapesList
        (newAll (Machine.start []) [.Line, .Polygon]).2 = some r ∧ Named r.2 1 "прямая") :=
  have hp : Named (newAll (Machine.start []) [.Line, .Polygon]).2 1 "прямая" := by decide
  ⟨hp,
   (getName_stable (ShapesCollection.mk [0, 7])
      (newAll (Machine.start []) [.Line, .Polygon]).2 1 0 Rectangle.Rectangle "прямая" hp).2.1,
   (getName_stable (ShapesCollection.mk [1, 2])
      (newAll (Machine.start []) [.Line, .Polygon]).2 1 2 Rectangle.Rectangle
      "прямая" hp).2.2.2.2.2.2.1,
   (getName_stable (ShapesCollection.mk [1, 2])
      (newAll (Machine.start []) [.Line, .Polygon]).2 1 2 Rectangle.Rectangle
      "прямая" hp).2.2.2.2.1 (by decide)⟩

/-! ## Auxiliary facts about sequences of calls -/

theorem perform_sound (m : Machine) (op : Op) (s : ShapesCollection × Machine)
    (hs : Sound m s) (hop : op.handleLive m = true) :
    ∃ s₁, op.perform s = some s₁ ∧ Sound m s₁ := by
  obtain ⟨hheap, hlive⟩ := hs
  cases op with
  | add shape =>
    refine ⟨_, rfl, hheap, ?_⟩
    intro p hp
    simp only [ShapesCollection.add, List.mem_append, List.mem_singleton] at hp
    rcases hp with hp | rfl
    · exact hlive p hp
    · exact hop
  | getCount => exact ⟨_, rfl, hheap, hlive⟩
  | displayShapesList =>
    obtain ⟨m₁, hm₁, hheap₁⟩ := displayLoop_complete m s.1.shapes hlive s.2 hheap
    refine ⟨(s.1, m₁), ?_, hheap₁, hlive⟩
    simp only [Op.perform, ShapesCollection.displayShapesList, hm₁, Option.map_some']
  | clearCollection =>
    refine ⟨_, rfl, hheap, ?_⟩
    intro p hp
    simp [ShapesCollection.clearCollection] at hp

theorem performAll_sound (m : Machine) (ops : List Op) (s : ShapesCollection × Machine)
    (hs : Sound m s) (hops : ∀ op ∈ ops, op.handleLive m = true) :
    ∃ s₁, performAll ops s = some s₁ ∧ Sound m s₁ := by
  induction ops generalizing s with
  | nil => exact ⟨s, rfl, hs⟩
  | cons op rest ih =>
    obtain ⟨s₁, hs₁, hsound₁⟩ :=
      perform_sound m op s hs (hops op (List.mem_cons_self op rest))
    obtain ⟨s₂, hs₂, hsound₂⟩ :=
      ih s₁ hsound₁ (fun o ho => hops o (List.mem_cons_of_mem op ho))
    exact ⟨s₂, by simp only [performAll, hs₁, Option.some_bind, hs₂], hsound₂⟩

/-! ## C11: which calls complete -/

/-- C11, as stated, fails: `add` accepts the null pointer and completes, and
the `displayShapesList` that follows reaches a handle it cannot read a name
from and does not complete. -/
theorem operations_complete_counterexample :
    performAll [.add 0] (ShapesCollection.new, Machine.start [])
      = some (ShapesCollection.mk [0], Machine.start []) ∧
    IContainer.getName (Machine.start []) 0 = none ∧
    performAll [.add 0, .displayShapesList] (ShapesCollection.new, Machine.start [])
      = none := by
  decide

/-- C11 (amended): `add` (with any handle whatever), `getCount` and
`clearCollection` complete on every collection and machine; and on every
state reached from a new collection by a finite sequence of `add`, `getCount`,
`displayShapesList` and `clearCollection` in which each handle passed to `add`
designates a live shape, the sequence has completed call by call and each of
the four operations completes again, `displayShapesList` included. -/
theorem operations_complete (m : Machine) (ops : List Op)
    (h : ∀ op ∈ ops, op.handleLive m = true) :
    (∀ (s : ShapesCollection × Machine) (shape : Ptr),
      ((Op.add shape).perform s).isSome = true ∧
      (Op.getCount.perform s).isSome = true ∧
      (Op.clearCollection.perform s).isSome = true) ∧
    ∃ s, performAll ops (ShapesCollection.new, m) = some s ∧
      s.2.heap = m.heap ∧
      (∀ shape : Ptr, ((Op.add shape).perform s).isSome = true) ∧
      (Op.getCount.perform s).isSome = true ∧
      (Op.displayShapesList.perform s).isSome = true ∧
      (Op.clearCollection.perform s).isSome = true := by
  refine ⟨fun s shape => ⟨rfl, rfl, rfl⟩, ?_⟩
  have h0 : Sound m (ShapesCollection.new, m) :=
    ⟨rfl, fun p hp => by simp [ShapesCollection.new] at hp⟩
  obtain ⟨s, hs, hsound⟩ := performAll_sound m ops _ h0 h
  refine ⟨s, hs, hsound.1, fun _ => rfl, rfl, ?_, rfl⟩
  obtain ⟨s₁, hs₁, _⟩ := perform_sound m .displayShapesList s hsound rfl
  rw [hs₁]
  rfl

/-- Witness for C11: a `Line` and an `Ellipse` are live; handles are added,
counted, displayed, cleared, added and displayed again. -/
theorem operations_complete_witness :
    (∀ op ∈ [Op.add 1, .getCount, .add 2, .add 1, .displayShapesList, .clearCollection,
        .add 2, .displayShapesList],
      op.handleLive (newAll (Machine.start []) [.Line, .Ellipse]).2 = true) ∧
    ∃ s, performAll [Op.add 1, .getCount, .add 2, .add 1, .displayShapesList,
        .clearCollection, .add 2, .displayShapesList]
        (ShapesCollection.new, (newAll (Machine.start []) [.Line, .Ellipse]).2) = some s ∧
      (Op.displayShapesList.perform s).isSome = true :=
  have h : ∀ op ∈ [Op.add 1, .getCount, .add 2, .add 1, .displayShapesList,
      .clearCollection, .add 2, .displayShapesList],
      op.handleLive (newAll (Machine.start []) [.Line, .Ellipse]).2 = true := by decide
  have key := (operations_complete _ _ h).2
  ⟨h, key.choose, key.choose_spec.1, key.choose_spec.2.2.2.2.1⟩

/-! ## Auxiliary facts about line counts and the conversion to `int` -/

theorem lineCount_append (a b : String) : lineCount (a ++ b) = lineCount a + lineCount b := by
  simp [lineCount, String.toList]

theorem lineCount_linesOf (names : List String) (h : ∀ n ∈ names, lineCount n = 0) :
    lineCount (linesOf names) = names.length := by
  induction names with
  | nil => rfl
  | cons n rest ih =>
    have h1 : lineCount "\n" = 1 := by decide
    simp only [linesOf, lineCount_append, h n (List.mem_cons_self n rest), h1,
      ih (fun k hk => h k (List.mem_cons_of_mem n hk)), List.length_cons]
    omega

theorem forall₂_replicate (m : Machine) (p : Ptr) (n : String) (h : Named m p n) (k : Nat) :
    List.Forall₂ (Named m) (List.replicate k p) (List.replicate k n) := by
  induction k with
  | zero => exact List.Forall₂.nil
  | succ k ih => exact List.Forall₂.cons h ih

theorem displayShapesList_eq (this : ShapesCollection) (m : Machine) (names : List String)
    (h : List.Forall₂ (Named m) this.shapes names) :
    this.displayShapesList m = some (this, { m with cout := m.cout ++ linesOf names }) := by
  simp only [ShapesCollection.displayShapesList, displayLoop_eq m _ names h,
    Option.map_some', Machine.put]

theorem linesWritten_eq (this : ShapesCollection) (m : Machine) (names : List String)
    (h : List.Forall₂ (Named m) this.shapes names) (hn : ∀ n ∈ names, lineCount n = 0) :
    linesWritten this m = some names.length := by
  simp only [linesWritten, displayShapesList_eq this m names h, Option.map_some',
    lineCount_append, lineCount_linesOf names hn, Nat.add_sub_cancel_left]

theorem sizeToInt_range (n : Nat) : -2 ^ 31 ≤ sizeToInt n ∧ sizeToInt n < 2 ^ 31 := by
  unfold sizeToInt
  split <;> omega

theorem sizeToInt_congr (n : Nat) : (sizeToInt n - (n : Int)) % 2 ^ 32 = 0 := by
  unfold sizeToInt
  split <;> omega

theorem sizeToInt_eq_bmod (n : Nat) : sizeToInt n = Int.bmod (n : Int) (2 ^ 32) := by
  simp only [sizeToInt, Int.bmod]
  split <;> split <;> omega

/-! ## C12: lines written and the count -/

/-- C12, as stated, fails.  A collection holding the handle of one `Line`
`2 ^ 31` times: `displayShapesList` writes `2 ^ 31` lines and `getCount`
returns `-2147483648`.  A collection holding the null pointer:
`displayShapesList` does not complete and `getCount` returns `1`. -/
theorem lines_equal_count_counterexample :
    linesWritten (ShapesCollection.mk (List.replicate (2 ^ 31) (Line.new (Machine.start [])).1))
      (Line.new (Machine.start [])).2 = some (2 ^ 31) ∧
    ((ShapesCollection.mk (List.replicate (2 ^ 31) (Line.new (Machine.start [])).1)).getCount
      (Line.new (Machine.start [])).2).1 = -2147483648 ∧
    linesWritten (ShapesCollection.mk [0]) (Machine.start []) = none ∧
    ((ShapesCollection.mk [0]).getCount (Machine.start [])).1 = 1 := by
  have hp : Named (Line.new (Machine.start [])).2 (Line.new (Machine.start [])).1 "прямая" := by
    decide
  have hn : ∀ n ∈ List.replicate (2 ^ 31) "прямая", lineCount n = 0 := by
    intro n hmem
    rw [List.eq_of_mem_replicate hmem]
    decide
  refine ⟨?_, ?_, by decide, by decide⟩
  · rw [linesWritten_eq _ _ (List.replicate (2 ^ 31) "прямая")
      (forall₂_replicate _ _ _ hp (2 ^ 31)) hn, List.length_replicate]
  · simp only [ShapesCollection.getCount, List.length_replicate]
    decide

/-- C12 (amended): for every collection whose handles all designate live
shapes and which holds at most `2 ^ 31 - 1` of them, `displayShapesList`
completes and writes exactly one line for each stored element, in order, the
name followed by one line terminator; the number of these lines is the number
of stored elements and equals the value `getCount` returns.  When no name
contains a line terminator, it is also the number of line terminators
written. -/
theorem lines_equal_count (this : ShapesCollection) (m : Machine) (names : List String)
    (h : List.Forall₂ (Named m) this.shapes names)
    (hsize : this.shapes.length ≤ 2 ^ 31 - 1) :
    this.displayShapesList m = some (this, { m with cout := m.cout ++ linesOf names }) ∧
    names.length = this.shapes.length ∧
    (this.getCount m).1 = (names.length : Int) ∧
    ((∀ n ∈ names, lineCount n = 0) →
      (linesWritten this m).map Int.ofNat = some (this.getCount m).1) := by
  have hlen : names.length = this.shapes.length := h.length_eq.symm
  have hcount : (this.getCount m).1 = (names.length : Int) := by
    rw [hlen]
    exact sizeToInt_of_le _ hsize
  refine ⟨displayShapesList_eq this m names h, hlen, hcount, fun hn => ?_⟩
  rw [linesWritten_eq this m names h hn, hcount]
  rfl

/-- Witness for C12: the collection holding an `Ellipse`, a `Polygon` and the
`Ellipse` again writes three lines and counts three. -/
theorem lines_equal_count_witness :
    List.Forall₂ (Named (newAll (Machine.start []) [.Ellipse, .Polygon]).2)
      (ShapesCollection.mk [1, 2, 1]).shapes ["эллипс", "многоугольник", "эллипс"] ∧
    (ShapesCollection.mk [1, 2, 1]).shapes.length ≤ 2 ^ 31 - 1 ∧
    (linesWritten (ShapesCollection.mk [1, 2, 1])
      (newAll (Machine.start []) [.Ellipse, .Polygon]).2).map Int.ofNat
      = some ((ShapesCollection.mk [1, 2, 1]).getCount
          (newAll (Machine.start []) [.Ellipse, .Polygon]).2).1 ∧
    ((ShapesCollection.mk [1, 2, 1]).getCount
      (newAll (Machine.start []) [.Ellipse, .Polygon]).2).1 = 3 :=
  have h : List.Forall₂ (Named (newAll (Machine.start []) [.Ellipse, .Polygon]).2)
      (ShapesCollection.mk [1, 2, 1]).shapes ["эллипс", "многоугольник", "эллипс"] :=
    List.Forall₂.cons (by decide) (List.Forall₂.cons (by decide)
      (List.Forall₂.cons (by decide) List.Forall₂.nil))
  have hsize : (ShapesCollection.mk [1, 2, 1]).shapes.length ≤ 2 ^ 31 - 1 := by decide
  have key := lines_equal_count _ _ _ h hsize
  ⟨h, hsize, key.2.2.2 (by decide), key.2.2.1⟩

/-! ## C13: the value `getCount` returns -/

/-- C13: the value `getCount` returns is the size of the vector converted to a
signed 32-bit `int`: it lies in the range from `-2 ^ 31` to `2 ^ 31 - 1` and is
congruent to the size modulo `2 ^ 32` (it is the size reduced modulo `2 ^ 32`
into the signed range); when the collection holds at most `2 ^ 31 - 1` shapes
it equals their number and is non-negative, and when it holds more it is not
their number. -/
theorem getCount_int_conversion (this : ShapesCollection) (m : Machine) :
    (this.getCount m).1 = Int.bmod (this.shapes.length : Int) (2 ^ 32) ∧
    (-2 ^ 31 ≤ (this.getCount m).1 ∧ (this.getCount m).1 < 2 ^ 31) ∧
    ((this.getCount m).1 - (this.shapes.length : Int)) % 2 ^ 32 = 0 ∧
    (this.shapes.length ≤ 2 ^ 31 - 1 →
      (this.getCount m).1 = (this.shapes.length : Int) ∧ 0 ≤ (this.getCount m).1) ∧
    (2 ^ 31 - 1 < this.shapes.length →
      (this.getCount m).1 ≠ (this.shapes.length : Int)) := by
  refine ⟨sizeToInt_eq_bmod _, sizeToInt_range _, sizeToInt_congr _, fun hle => ?_,
    fun hgt => ?_⟩
  · have hc : (this.getCount m).1 = (this.shapes.length : Int) := sizeToInt_of_le _ hle
    rw [hc]
    exact ⟨rfl, Int.ofNat_nonneg _⟩
  · have hr : (this.getCount m).1 < 2 ^ 31 := (sizeToInt_range _).2
    omega

end Shapes
